import Mathlib

/-!
Verification model of `tools/serve_core.py` (ESP8266 core-dump GDB server).

The Python source is shallowly embedded: byte strings become `List Nat`
(each element an 8-bit byte value), file names become `List Char`, and
fallible operations (that raise exceptions in Python) return `Option`.
The doc comment of each definition names the source function and lines it
translates.
-/

/-- Byte values of a Lean string literal (models a Python `str` of ASCII text). -/
def strBytes (s : String) : List Nat := s.data.map Char.toNat

/-- Character list of a Lean string literal (for file names). -/
def strChars (s : String) : List Char := s.data

/-- Model of `Core.read` (serve_core.py lines 114-119): scan `self.mem` in order; on the
first region `(base, end, data)` with `base <= addr < end` return the Python
slice `data[addr-base : addr-base+size]` (which silently truncates at the end
of `data`); if no region contains `addr`, return `"\0" * size`. -/
def Core.read (mem : List (Nat × Nat × List Nat)) (addr size : Nat) : List Nat :=
  match mem with
  | [] => List.replicate size 0
  | (base, e, data) :: rest =>
    if base ≤ addr ∧ addr < e then (data.drop (addr - base)).take size
    else Core.read rest addr size

/-- The first region of the map (in insertion order) whose range contains
`addr`; mirrors the scan order of `Core.read`. -/
def firstRegion (mem : List (Nat × Nat × List Nat)) (addr : Nat) :
    Option (Nat × Nat × List Nat) :=
  match mem with
  | [] => none
  | (base, e, data) :: rest =>
    if base ≤ addr ∧ addr < e then some (base, e, data)
    else firstRegion rest addr

/-- Value of one hexadecimal digit byte (models `int(c, 16)` on a single
character and the per-character decoding of the Python hex codec): digits
`0`-`9`, `a`-`f`, `A`-`F`; anything else raises, i.e. `none`. -/
def hexVal (c : Nat) : Option Nat :=
  if 48 ≤ c ∧ c ≤ 57 then some (c - 48)
  else if 97 ≤ c ∧ c ≤ 102 then some (c - 87)
  else if 65 ≤ c ∧ c ≤ 70 then some (c - 55)
  else none

/-- Lowercase hexadecimal digit of a value below 16, as produced by the Python
format specifier x (digits then lowercase letters). -/
def hexDigit (n : Nat) : Nat := if n < 10 then 48 + n else 87 + n

/-- A byte that is a lowercase hexadecimal digit character. -/
def isLowerHexDigit (b : Nat) : Bool :=
  (48 ≤ b && b ≤ 57) || (97 ≤ b && b ≤ 102)

/-- Model of `GDBHandler.encode_bytes` (lines 159-160): each byte becomes the
two lowercase hex digits produced by the Python format specifier 02x. -/
def GDBHandler.encode_bytes (bs : List Nat) : List Nat :=
  bs.flatMap (fun b => [hexDigit (b / 16), hexDigit (b % 16)])

/-- Model of `GDBHandler.decode_bytes` (lines 162-163), the hex codec of a
Python 2 string: pairs
of hex digits (either case) become bytes; an odd-length or non-hex string
raises, i.e. `none`. -/
def GDBHandler.decode_bytes (s : List Nat) : Option (List Nat) :=
  match s with
  | [] => some []
  | [_] => none
  | c1 :: c2 :: rest =>
    match hexVal c1, hexVal c2 with
    | some x, some y => (GDBHandler.decode_bytes rest).map (fun r => (x * 16 + y) :: r)
    | _, _ => none

/-- Model of `GDBHandler._checksum` (lines 174-175): sum of the payload byte values
modulo 0x100. -/
def GDBHandler._checksum (s : List Nat) : Nat := s.sum % 256

/-- Model of `GDBHandler.send_str` (lines 171-172): the framed response —
dollar sign (36), payload, hash sign (35), two lowercase hex checksum
digits. -/
def GDBHandler.send_str (s : List Nat) : List Nat :=
  [36] ++ s ++ [35, hexDigit (GDBHandler._checksum s / 16),
    hexDigit (GDBHandler._checksum s % 16)]

/-- Python string splitting on the comma byte 44, as `pkt[1:].split` at line 136 does. -/
def splitComma (s : List Nat) : List (List Nat) :=
  match s with
  | [] => [[]]
  | c :: rest =>
    if c = 44 then [] :: splitComma rest
    else
      match splitComma rest with
      | [] => [[c]]
      | h :: t => (c :: h) :: t

/-- Model of `int(s, 16)` on a byte string of hex digits (the uses at line 137;
the sign, whitespace and `0x`-prefix forms Python also accepts never occur in
GDB packets and are not modelled).  An empty or non-hex string raises. -/
def parseHexB (s : List Nat) : Option Nat :=
  if s.isEmpty then none
  else s.foldl (fun acc c => acc.bind (fun a => (hexVal c).map (fun v => a * 16 + v)))
    (some 0)

/-- The state `GDBHandler.handle` mutates: the memory map built by
`Core.__init__` and the register blob `core.regs`. -/
structure CoreState where
  mem : List (Nat × Nat × List Nat)
  regs : List Nat
deriving DecidableEq

/-- One iteration of the dispatch chain of `GDBHandler.handle`
(lines 126-155), given the packet string returned by `read_packet`.  Returns
the state after the iteration and the payload passed to `send_str`, or `none`
where the Python code raises: `pkt[0]` on the empty string (line 132),
`decode_bytes` on a malformed `G` payload, and unpacking or `int(_, 16)` on a
malformed `m` payload. -/
def GDBHandler.handle_dispatch (st : CoreState) (pkt : List Nat) :
    Option (CoreState × List Nat) :=
  if pkt = strBytes ("?") then some (st, strBytes ("S09"))
  else if pkt = strBytes ("g") then some (st, GDBHandler.encode_bytes st.regs)
  else
    match pkt with
    | [] => none
    | c :: rest =>
      if c = 71 then
        match GDBHandler.decode_bytes rest with
        | some r => some ({ mem := st.mem, regs := r }, strBytes ("OK"))
        | none => none
      else if c = 109 then
        match splitComma rest with
        | [a, s] =>
          match parseHexB a, parseHexB s with
          | some addr, some size =>
            some (st, GDBHandler.encode_bytes (Core.read st.mem addr size))
          | _, _ => none
        | _ => none
      else if List.isPrefixOf (strBytes ("Hg")) pkt then some (st, strBytes ("OK"))
      else if List.isPrefixOf (strBytes ("Hc-1")) pkt then some (st, strBytes ("E01"))
      else if pkt = strBytes ("qC") then some (st, strBytes ("1"))
      else if pkt = strBytes ("qTStatus") ∨ pkt = strBytes ("qOffsets") ∨
          List.isPrefixOf (strBytes ("qSupported")) pkt then some (st, [])
      else if pkt = strBytes ("qAttached") then some (st, strBytes ("1"))
      else if pkt = strBytes ("qSymbol::") then some (st, strBytes ("OK"))
      else some (st, [])

/-- Model of `GDBHandler.read_packet` (lines 180-193) after the payload `pkt` (read up
to `#`) and the checksum bytes `chk` (the result of the two `recv(1)` calls,
concatenated) are in hand.  Returns `(bytes sent on the socket, packet string
returned to handle)`: a short `chk` (end of file) returns the empty string
with nothing sent; a parsed checksum that mismatches sends one `-` (45) and
returns the empty string; a match sends one `+` (43) and returns the payload.
`int(chk, 16)` on non-hex bytes raises, i.e. `none`. -/
def GDBHandler.read_packet_result (pkt chk : List Nat) :
    Option (List Nat × List Nat) :=
  if chk.length ≠ 2 then some ([], [])
  else
    match parseHexB chk with
    | none => none
    | some v =>
      if v ≠ GDBHandler._checksum pkt then some ([45], [])
      else some ([43], pkt)

/-- Model of `os.path.basename`: the part of the path after the last slash byte. -/
def basenameL (s : List Char) : List Char :=
  s.foldl (fun acc c => if c = '/' then [] else acc ++ [c]) []

/-- The root of `os.path.splitext`: everything before the last dot, or the
whole name when it has no dot.  (The Python special case that keeps a leading
dot of a dotfile as part of the root is not modelled; firmware names here are
hex stems such as 0x11000.) -/
def stemL (s : List Char) : List Char :=
  match s.reverse.dropWhile (fun c => c ≠ '.') with
  | [] => s
  | _ :: rest => rest.reverse

/-- Model of `int(name, 16)` on a character string (line 103).  The sign, whitespace
and `0x`-prefix forms Python also accepts do not occur in firmware file stems
and are not modelled; an empty or non-hex name raises `ValueError`, i.e.
`none`. -/
def parseHexL (s : List Char) : Option Nat :=
  if s.isEmpty then none
  else s.foldl
    (fun acc c => acc.bind (fun a => (hexVal c.toNat).map (fun v => a * 16 + v)))
    (some 0)

/-- Model of `Core._map_firmware` (lines 100-112): when no explicit address is given,
derive it as base plus the stem of the file name parsed as hex; if the first
two bytes of the file are the 0xEA 0x04 magic (checked with a short-circuit
`and`, so `data[1]` is only read when `data[0]` is `0xEA`), shift the load
address by 16; the region is `(addr, addr + len(data), data)`.  `none` models
the raising paths: unparsable stem, and the `IndexError` cases `data[0]` of
an empty file and `data[1]` of a one-byte file starting with `0xEA`. -/
def Core._map_firmware (addrOpt : Option Nat) (filename : List Char)
    (fileData : List Nat) (base : Nat) : Option (Nat × Nat × List Nat) :=
  match (match addrOpt with
         | some a => some a
         | none => (parseHexL (stemL (basenameL filename))).map (fun off => base + off)) with
  | none => none
  | some a =>
    match fileData with
    | [] => none
    | x :: rest =>
      if x = 0xea then
        match rest with
        | [] => none
        | y :: _ =>
          if y = 0x04 then
            some (a + 16, a + 16 + (x :: rest).length, x :: rest)
          else some (a, a + (x :: rest).length, x :: rest)
      else some (a, a + (x :: rest).length, x :: rest)

/-- Base64 alphabet value of a character (A-Z, a-z, 0-9, plus, slash). -/
def b64val (c : Char) : Option Nat :=
  if 65 ≤ c.toNat ∧ c.toNat ≤ 90 then some (c.toNat - 65)
  else if 97 ≤ c.toNat ∧ c.toNat ≤ 122 then some (c.toNat - 71)
  else if 48 ≤ c.toNat ∧ c.toNat ≤ 57 then some (c.toNat + 4)
  else if c.toNat = 43 then some 62
  else if c.toNat = 47 then some 63
  else none

/-- Model of the binascii_find_valid lookahead of Python 2 binascii.c, as
called with num equal to 1 from the pad branch of a2b_base64: the first
base64-significant character (alphabet or pad) strictly after the current
one, skipping ignored characters; `none` when there is none (the C code
returns -1, which compares unequal to the pad). -/
def findNextValid : List Char → Option Char
  | [] => none
  | c :: rest =>
    if (b64val c).isSome || c = '=' then some c else findNextValid rest

/-- The character loop of binascii_a2b_base64 (Python 2 binascii.c), with
state quad_pos (position inside the current 4-character group), leftbits and
leftchar (undecoded bit backlog).  A pad at quad_pos 0 or 1 is skipped; a pad
at quad_pos 2 ends decoding successfully only when the next significant
character is also a pad, and is skipped otherwise; a pad at quad_pos 3 ends
decoding successfully.  Characters outside the alphabet are skipped without
touching quad_pos.  An alphabet character shifts 6 bits into leftchar and a
byte is emitted whenever 8 bits are available.  At end of input, leftover
bits (leftbits not 0) raise the incorrect-padding `binascii.Error`,
i.e. `none`. -/
def a2bBase64Go : List Char → Nat → Nat → Nat → Option (List Nat)
  | [], _, leftbits, _ => if leftbits ≠ 0 then none else some []
  | c :: rest, quad_pos, leftbits, leftchar =>
    if c = '=' then
      if quad_pos < 2 then a2bBase64Go rest quad_pos leftbits leftchar
      else if quad_pos = 2 then
        if findNextValid rest = some '=' then some []
        else a2bBase64Go rest quad_pos leftbits leftchar
      else some []
    else
      match b64val c with
      | none => a2bBase64Go rest quad_pos leftbits leftchar
      | some v =>
        if leftbits + 6 ≥ 8 then
          (a2bBase64Go rest ((quad_pos + 1) % 4) (leftbits + 6 - 8)
              ((leftchar * 64 + v) % 2 ^ (leftbits + 6 - 8))).map
            (fun t => (leftchar * 64 + v) / 2 ^ (leftbits + 6 - 8) % 256 :: t)
        else a2bBase64Go rest ((quad_pos + 1) % 4) (leftbits + 6) (leftchar * 64 + v)

/-- Model of `base64.decodestring` (used at lines 55 and 95), which calls
`binascii.a2b_base64` on the whole string: run the a2b_base64 loop from the
initial state (quad_pos 0, no backlog bits). -/
def decodestring (s : List Char) : Option (List Nat) :=
  a2bBase64Go s 0 0 0

/-- A value of the parsed dump JSON object: either not a JSON object
(`isinstance(v, dict)` fails, line 93) or an object carrying optional
`addr` and `data` fields. -/
structure JDict where
  addr : Option Nat
  data : Option (List Char)
deriving DecidableEq

/-- JSON value shape as far as `Core._map_core` inspects it. -/
inductive JVal where
  | nondict : JVal
  | dict : JDict → JVal
deriving DecidableEq

/-- Model of `Core._map_core` (lines 90-98): walk the entries of the dump
record; skip
non-dict values and the `REGS` key; for every other entry decode
`v["data"]` with `base64.decodestring` and build the region
`(v["addr"], v["addr"] + len(data), data)`.  A missing `data` field, a
payload `decodestring` raises on, or a missing `addr` field raises
(`KeyError` / `binascii.Error`), aborting the whole decode: `none`. -/
def Core._map_core (core : List (String × JVal)) :
    Option (List (Nat × Nat × List Nat)) :=
  match core with
  | [] => some []
  | (k, v) :: rest =>
    match v with
    | JVal.nondict => Core._map_core rest
    | JVal.dict d =>
      if k = "REGS" then Core._map_core rest
      else
        match d.data with
        | none => none
        | some s =>
          match decodestring s with
          | none => none
          | some bytes =>
            match d.addr with
            | none => none
            | some addr =>
              (Core._map_core rest).map
                (fun m => (addr, addr + bytes.length, bytes) :: m)

/-- Bytes of `START_DELIM` (line 43). -/
def START_BYTES : List Nat := strBytes ("--- BEGIN CORE DUMP ---")

/-- Bytes of `END_DELIM` (line 44). -/
def END_BYTES : List Nat := strBytes ("---- END CORE DUMP ----")

/-- The pattern occurs in `data` starting at position `p` (full occurrence,
as `str.rfind` reports). -/
def matchesAt (data pat : List Nat) (p : Nat) : Bool :=
  decide ((data.drop p).take pat.length = pat)

/-- Highest position `q ≤ n` where the pattern occurs, scanning downward. -/
def rfindAux (data pat : List Nat) : Nat → Option Nat
  | 0 => if matchesAt data pat 0 then some 0 else none
  | n + 1 => if matchesAt data pat (n + 1) then some (n + 1) else rfindAux data pat n

/-- Python `data.rfind(pattern)` restricted to the found/not-found positions
(`some` position instead of the -1 sentinel). -/
def rfindL (data pat : List Nat) : Option Nat := rfindAux data pat data.length

/-- The loop of `Core._search_backwards` (lines 57-68), parametrised by the
current `offset` (the Python variable after the `offset += 5000` of the
previous iteration, or `start_offset` on entry).  Each iteration sets
`offset = max(0, offset - 10000)`, reads `min(10000, start_offset)` bytes at
that offset, and returns `offset + pos` on a hit; on a miss it returns -1
once the window start reached 0, else retries from `offset + 5000`. -/
def searchGo (file : List Nat) (so : Nat) (pat : List Nat) (offset : Nat) : Int :=
  match rfindL ((file.drop (offset - 10000)).take (min 10000 so)) pat with
  | some pos => ((offset - 10000 + pos : Nat) : Int)
  | none =>
    if h : offset - 10000 = 0 then -1
    else searchGo file so pat (offset - 10000 + 5000)
termination_by offset
decreasing_by omega

/-- Model of `Core._search_backwards` (lines 57-68) on a
file given as a byte list. -/
def Core._search_backwards (file : List Nat) (so : Nat) (pat : List Nat) : Int :=
  searchGo file so pat so

/-- Model of `Core._read` (lines 70-88) up to the extraction of `core_json`: search
backwards from end-of-file for the end delimiter, then backwards from there
for the start delimiter; a missing delimiter is a fatal error (`os.exit`),
i.e. `none`; otherwise return the bytes strictly between the end of the
start delimiter and the start of the end delimiter (the text later
newline-stripped and fed to `json.loads`, which `Core._map_core` models in
parsed form). -/
def Core._read (file : List Nat) : Option (List Nat) :=
  if Core._search_backwards file file.length END_BYTES = -1 then none
  else if Core._search_backwards file
      (Core._search_backwards file file.length END_BYTES).toNat START_BYTES = -1 then
    none
  else
    some ((file.drop
      ((Core._search_backwards file
          (Core._search_backwards file file.length END_BYTES).toNat
          START_BYTES).toNat + START_BYTES.length)).take
      ((Core._search_backwards file file.length END_BYTES).toNat -
       ((Core._search_backwards file
           (Core._search_backwards file file.length END_BYTES).toNat
           START_BYTES).toNat + START_BYTES.length)))

/-- A serial log holding two complete core-dump snippets (payloads `A` and
`B`): the end delimiters start at offsets 24 and 71, the start delimiters at
0 and 47; the file has 94 bytes. -/
def exLog : List Nat :=
  strBytes ("--- BEGIN CORE DUMP ---A---- END CORE DUMP ------- BEGIN CORE DUMP ---B---- END CORE DUMP ----")

/-- Claim C1 (as stated in the spec) is false on the code: a request whose
start address is inside a region but whose end extends past the region end
returns the truncated backing slice, not `size` zero bytes.  Here the map is
two adjacent regions `[0,2)` and `[2,4)`; reading 2 bytes at address 1
straddles them and yields the 1-byte truncated slice `[20]`. -/
theorem c1_counterexample :
    Core.read [(0, 2, [10, 20]), (2, 4, [30, 40])] 1 2 = [20] ∧
    Core.read [(0, 2, [10, 20]), (2, 4, [30, 40])] 1 2 ≠ List.replicate 2 0 := by
  constructor
  · rfl
  · decide

/-- Claim C1 (amended): `Core.read mem addr size` is determined by the first
region (in insertion order) whose range contains `addr`.  If no region
contains `addr`, the result is `size` zero bytes.  If the first such region is
`(b, e, d)`, the result is the Python slice `d[addr-b : addr-b+size]`; when
the region is well formed (`d.length = e - b`) the result has length
`min size (e - addr)` — in particular, exactly `size` backing bytes when the
request lies fully inside the region (`addr + size ≤ e`), and a truncated
(shorter) slice, never zero fill, when the request overruns the region end. -/
theorem c1_read_characterization (mem : List (Nat × Nat × List Nat))
    (addr size : Nat) :
    (firstRegion mem addr = none →
      Core.read mem addr size = List.replicate size 0) ∧
    (∀ b e d, firstRegion mem addr = some (b, e, d) →
      (b ≤ addr ∧ addr < e) ∧
      Core.read mem addr size = (d.drop (addr - b)).take size ∧
      (d.length = e - b →
        (Core.read mem addr size).length = min size (e - addr) ∧
        (addr + size ≤ e → (Core.read mem addr size).length = size))) := by
  induction mem with
  | nil =>
    refine ⟨fun _ => rfl, fun b e d h => ?_⟩
    simp [firstRegion] at h
  | cons r rest ih =>
    obtain ⟨rb, re, rd⟩ := r
    by_cases hc : rb ≤ addr ∧ addr < re
    · refine ⟨fun h => ?_, fun b e d h => ?_⟩
      · simp [firstRegion, hc] at h
      · simp [firstRegion, hc] at h
        obtain ⟨hb, he, hd⟩ := h
        subst b
        subst e
        subst d
        refine ⟨hc, ?_, fun hlen => ?_⟩
        · simp [Core.read, hc]
        · have hread : Core.read ((rb, re, rd) :: rest) addr size =
              (rd.drop (addr - rb)).take size := by simp [Core.read, hc]
          rw [hread, List.length_take, List.length_drop, hlen]
          obtain ⟨hc1, hc2⟩ := hc
          constructor
          · congr 1
            omega
          · intro hin
            omega
    · have h1 : firstRegion ((rb, re, rd) :: rest) addr = firstRegion rest addr := by
        simp [firstRegion, hc]
      have h2 : Core.read ((rb, re, rd) :: rest) addr size =
          Core.read rest addr size := by
        simp [Core.read, hc]
      rw [h1, h2]
      exact ih

/-- Witness for `c1_read_characterization`: the unmapped case at a concrete
input, and the fully-inside case returning the exact backing slice. -/
theorem c1_witness :
    Core.read [(10, 12, [7, 8])] 5 3 = List.replicate 3 0 ∧
    Core.read [(10, 12, [7, 8])] 10 2 = ([7, 8].drop (10 - 10)).take 2 ∧
    (Core.read [(10, 12, [7, 8])] 10 2).length = 2 := by
  refine ⟨(c1_read_characterization [(10, 12, [7, 8])] 5 3).1 rfl, ?_, ?_⟩
  · exact ((c1_read_characterization [(10, 12, [7, 8])] 10 2).2 10 12 [7, 8] rfl).2.1
  · exact (((c1_read_characterization [(10, 12, [7, 8])] 10 2).2 10 12 [7, 8]
      rfl).2.2 rfl).2 (by decide)

/-- Claim C3: `Core.__init__` (lines 48-55) builds `self.mem` as the core-dump
regions followed by the firmware regions (`self.mem = self._map_core(dump)`
then three `self.mem.append(self._map_firmware(...))` calls), so the memory
map is `coreRegions ++ fwRegions`.  Since `Core.read` returns the first region
in insertion order containing `addr`, any address contained in some core-dump
region is served from the core-dump regions: the firmware regions never
contribute, even when a firmware region also covers the address. -/
theorem c3_core_shadows_firmware (coreRegions fwRegions : List (Nat × Nat × List Nat))
    (addr size : Nat)
    (hc : ∃ r ∈ coreRegions, r.1 ≤ addr ∧ addr < r.2.1)
    (_hf : ∃ r ∈ fwRegions, r.1 ≤ addr ∧ addr < r.2.1) :
    Core.read (coreRegions ++ fwRegions) addr size = Core.read coreRegions addr size := by
  induction coreRegions with
  | nil => simp at hc
  | cons r rest ih =>
    obtain ⟨rb, re, rd⟩ := r
    by_cases hin : rb ≤ addr ∧ addr < re
    · simp [Core.read, hin]
    · have hstep : ∃ r ∈ rest, r.1 ≤ addr ∧ addr < r.2.1 := by
        obtain ⟨q, hq, hqr⟩ := hc
        rcases List.mem_cons.mp hq with hq1 | hq2
        · exfalso
          subst hq1
          exact hin hqr
        · exact ⟨q, hq2, hqr⟩
      simpa [Core.read, hin] using ih hstep

/-- Witness for `c3_core_shadows_firmware`: a core-dump region and a firmware
region both cover address 1; the read is served from the core-dump region. -/
theorem c3_witness :
    Core.read ([(0, 2, [1, 2])] ++ [(0, 2, [9, 9])]) 1 1 = Core.read [(0, 2, [1, 2])] 1 1 :=
  c3_core_shadows_firmware [(0, 2, [1, 2])] [(0, 2, [9, 9])] 1 1
    ⟨(0, 2, [1, 2]), by decide⟩ ⟨(0, 2, [9, 9]), by decide⟩

theorem hexVal_hexDigit (x : Nat) (h : x < 16) : hexVal (hexDigit x) = some x := by
  interval_cases x <;> rfl

theorem isLowerHexDigit_hexDigit (x : Nat) (h : x < 16) :
    isLowerHexDigit (hexDigit x) = true := by
  interval_cases x <;> rfl

theorem lowerHexDigit_round (c : Nat) (h : isLowerHexDigit c = true) :
    ∃ x, x < 16 ∧ hexVal c = some x ∧ hexDigit x = c := by
  unfold isLowerHexDigit at h
  simp only [Bool.or_eq_true, Bool.and_eq_true, decide_eq_true_eq] at h
  rcases h with ⟨h1, h2⟩ | ⟨h1, h2⟩
  · refine ⟨c - 48, by omega, ?_, ?_⟩
    · unfold hexVal
      rw [if_pos ⟨h1, h2⟩]
    · unfold hexDigit
      rw [if_pos (by omega)]
      omega
  · refine ⟨c - 87, by omega, ?_, ?_⟩
    · unfold hexVal
      rw [if_neg (by omega), if_pos ⟨h1, h2⟩]
    · unfold hexDigit
      rw [if_neg (by omega)]
      omega

/-- Claim C7: every response goes through `send_str`, which frames the payload
as `$` + payload + `#` + two lowercase hex digits whose value is the sum of
the payload bytes modulo 256; and the dispatch chain answers the unknown
command `zZZ` with the empty payload, so the wire response is `$#00`
(bytes 36, 35, 48, 48). -/
theorem c7_response_framing :
    (∀ s : List Nat, ∃ h l x y,
      GDBHandler.send_str s = [36] ++ s ++ [35, h, l] ∧
      isLowerHexDigit h = true ∧ isLowerHexDigit l = true ∧
      hexVal h = some x ∧ hexVal l = some y ∧ x * 16 + y = s.sum % 256) ∧
    (∀ st : CoreState, GDBHandler.handle_dispatch st (strBytes ("zZZ")) = some (st, [])) ∧
    GDBHandler.send_str [] = [36, 35, 48, 48] := by
  refine ⟨fun s => ?_, fun st => rfl, rfl⟩
  have hcs : GDBHandler._checksum s < 256 := Nat.mod_lt _ (by norm_num)
  have h1 : GDBHandler._checksum s / 16 < 16 := by omega
  have h2 : GDBHandler._checksum s % 16 < 16 := by omega
  refine ⟨hexDigit (GDBHandler._checksum s / 16), hexDigit (GDBHandler._checksum s % 16),
    GDBHandler._checksum s / 16, GDBHandler._checksum s % 16, rfl,
    isLowerHexDigit_hexDigit _ h1, isLowerHexDigit_hexDigit _ h2,
    hexVal_hexDigit _ h1, hexVal_hexDigit _ h2, by
      unfold GDBHandler._checksum
      omega⟩

theorem encode_decode_aux (n : Nat) : ∀ h : List Nat, h.length ≤ n →
    h.length % 2 = 0 → (∀ c ∈ h, isLowerHexDigit c = true) →
    ∃ bs, GDBHandler.decode_bytes h = some bs ∧ GDBHandler.encode_bytes bs = h := by
  induction n with
  | zero =>
    intro h hl _ _
    have hnil : h = [] := List.eq_nil_of_length_eq_zero (by omega)
    subst hnil
    exact ⟨[], rfl, rfl⟩
  | succ n ih =>
    intro h hl hpar hhex
    rcases h with _ | ⟨c1, _ | ⟨c2, t⟩⟩
    · exact ⟨[], rfl, rfl⟩
    · simp at hpar
    · obtain ⟨x, hx16, hxv, hxd⟩ := lowerHexDigit_round c1 (hhex _ (by simp))
      obtain ⟨y, hy16, hyv, hyd⟩ := lowerHexDigit_round c2 (hhex _ (by simp))
      obtain ⟨bs, hbs, henc⟩ := ih t (by simp at hl ⊢; omega)
        (by simp at hpar ⊢; omega)
        (fun c hc => hhex c (by simp [hc]))
      refine ⟨(x * 16 + y) :: bs, ?_, ?_⟩
      · unfold GDBHandler.decode_bytes
        rw [hxv, hyv, hbs]
        rfl
      · unfold GDBHandler.encode_bytes at henc ⊢
        simp only [List.flatMap_cons]
        have e1 : (x * 16 + y) / 16 = x := by omega
        have e2 : (x * 16 + y) % 16 = y := by omega
        rw [e1, e2, hxd, hyd, henc]
        rfl

/-- Claim C8: `encode_bytes` and `decode_bytes` are exact inverses — decoding
an encoded byte string recovers it, and encoding the decode of any even-length
lowercase hex string recovers the string. -/
theorem c8_hex_roundtrip :
    (∀ bs : List Nat, (∀ b ∈ bs, b < 256) →
      GDBHandler.decode_bytes (GDBHandler.encode_bytes bs) = some bs) ∧
    (∀ h : List Nat, h.length % 2 = 0 → (∀ c ∈ h, isLowerHexDigit c = true) →
      ∃ bs, GDBHandler.decode_bytes h = some bs ∧ GDBHandler.encode_bytes bs = h) := by
  constructor
  · intro bs h
    induction bs with
    | nil => rfl
    | cons b t ih =>
      have hb : b < 256 := h b (by simp)
      have h1 : b / 16 < 16 := by omega
      have h2 : b % 16 < 16 := by omega
      have ht := ih (fun c hc => h c (by simp [hc]))
      unfold GDBHandler.encode_bytes at ht ⊢
      simp only [List.flatMap_cons]
      show GDBHandler.decode_bytes
        (hexDigit (b / 16) :: hexDigit (b % 16) :: t.flatMap _) = some (b :: t)
      unfold GDBHandler.decode_bytes
      rw [hexVal_hexDigit _ h1, hexVal_hexDigit _ h2, ht]
      have hxy : b / 16 * 16 + b % 16 = b := by omega
      simp [hxy]
  · intro h
    exact encode_decode_aux h.length h (le_refl _)

/-- Witness for `c8_hex_roundtrip`: bytes 0 and 171 survive the encode-decode
round trip, and the lowercase hex string "00ab" survives decode-encode. -/
theorem c8_witness :
    GDBHandler.decode_bytes (GDBHandler.encode_bytes [0, 171]) = some [0, 171] ∧
    ∃ bs, GDBHandler.decode_bytes (strBytes ("00ab")) = some bs ∧
      GDBHandler.encode_bytes bs = strBytes ("00ab") := by
  exact ⟨c8_hex_roundtrip.1 [0, 171] (by decide),
    c8_hex_roundtrip.2 (strBytes ("00ab")) (by decide) (by decide)⟩

/-- Claim C9: in the dispatch chain of `GDBHandler.handle`, only the
`G` command (line 132-134) changes state, and it only changes the register
buffer: it replaces it wholesale with the hex-decoded payload and leaves the
memory map untouched.  Every other command that completes (`?`, `g`, `m`,
`H*`, `q*`, unknown) leaves the state — memory map and register buffer —
exactly as it was. -/
theorem c9_register_overwrite_only (st : CoreState) (pkt : List Nat)
    (st2 : CoreState) (resp : List Nat)
    (h : GDBHandler.handle_dispatch st pkt = some (st2, resp)) :
    (pkt.head? = some 71 →
      st2.mem = st.mem ∧ GDBHandler.decode_bytes pkt.tail = some st2.regs) ∧
    (pkt.head? ≠ some 71 → st2 = st) := by
  have e1 : strBytes ("?") = [63] := rfl
  have e2 : strBytes ("g") = [103] := rfl
  rcases pkt with _ | ⟨c, rest⟩
  · simp [GDBHandler.handle_dispatch, e1, e2] at h
  · simp only [GDBHandler.handle_dispatch, e1, e2] at h
    simp only [List.head?_cons, List.tail_cons, Option.some.injEq]
    repeat' split at h
    all_goals
      first
      | exact Option.noConfusion h
      | (rw [Option.some.injEq, Prod.mk.injEq] at h
         obtain ⟨hst, hresp⟩ := h
         subst hst
         constructor
         · intro hc
           first
           | exact ⟨rfl, by simp_all⟩
           | simp_all
         · intro hc
           first
           | rfl
           | simp_all)

/-- Witness for `c9_register_overwrite_only`: a `G00` packet replaces the
register buffer with the decoded byte and keeps the memory map; a `?` packet
leaves the state unchanged. -/
theorem c9_witness :
    ((⟨[], [0]⟩ : CoreState).mem = (⟨[], [255]⟩ : CoreState).mem ∧
      GDBHandler.decode_bytes (strBytes ("G00")).tail =
        some (⟨[], [0]⟩ : CoreState).regs) ∧
    (⟨[(0, 1, [5])], [9]⟩ : CoreState) = ⟨[(0, 1, [5])], [9]⟩ := by
  refine ⟨(c9_register_overwrite_only ⟨[], [255]⟩ (strBytes ("G00")) ⟨[], [0]⟩
      (strBytes ("OK")) rfl).1 rfl,
    (c9_register_overwrite_only ⟨[(0, 1, [5])], [9]⟩ (strBytes ("?")) ⟨[(0, 1, [5])], [9]⟩
      (strBytes ("S09")) rfl).2 (by decide)⟩

/-- Claim C2 is the intended behaviour but the code has a slip: on a checksum
mismatch `read_packet` (lines 186-190) does send exactly one `-` byte and
does not dispatch the packet, but it then hands the empty sentinel string to
the dispatch loop, where `pkt[0]` (line 132) has no value for the empty
string (`IndexError`), so the session does not continue awaiting the next
packet.  Evaluated at the failing input: wire packet `$g#00` (payload `g`,
claimed checksum `00`, true checksum `67`). -/
theorem c2_session_aborts_on_bad_checksum :
    GDBHandler.read_packet_result (strBytes ("g")) (strBytes ("00")) = some ([45], []) ∧
    ∀ st : CoreState, GDBHandler.handle_dispatch st [] = none := by
  exact ⟨rfl, fun st => rfl⟩

/-- Claim C10: the dispatch chain is not total on the empty packet string —
`pkt[0]` has no value there, modelled as `none` — and `read_packet` produces
that empty string on a checksum mismatch (here `$g#ff`), on end-of-file while
reading the two checksum bytes (here only one byte arrived), and on the
well-formed empty wire packet `$#00` (whose checksum is valid, so it is
acknowledged with `+` and still returns the empty string). -/
theorem c10_empty_packet_dispatch_undefined :
    (∀ st : CoreState, GDBHandler.handle_dispatch st [] = none) ∧
    GDBHandler.read_packet_result (strBytes ("g")) (strBytes ("ff")) = some ([45], []) ∧
    GDBHandler.read_packet_result (strBytes ("g")) [48] = some ([], []) ∧
    GDBHandler.read_packet_result [] (strBytes ("00")) = some ([43], []) := by
  exact ⟨fun st => rfl, rfl, rfl, rfl⟩

/-- Claim C5: a firmware file named `11000` with no explicit load address and
base constant `0x40200000` maps starting at `0x40211000`; when its first two
bytes are `0xEA 0x04` the mapping starts at `0x40211010` instead. -/
theorem c5_firmware_address_derivation :
    (∀ x y rest, ¬(x = 0xea ∧ y = 0x04) →
      Core._map_firmware none (strChars ("11000")) (x :: y :: rest) 0x40200000 =
        some (0x40211000, 0x40211000 + (x :: y :: rest).length, x :: y :: rest)) ∧
    (∀ rest,
      Core._map_firmware none (strChars ("11000")) (0xea :: 0x04 :: rest) 0x40200000 =
        some (0x40211010, 0x40211010 + (0xea :: 0x04 :: rest).length,
          0xea :: 0x04 :: rest)) := by
  have haddr : parseHexL (stemL (basenameL (strChars ("11000")))) = some 0x11000 := by
    decide
  constructor
  · intro x y rest hne
    unfold Core._map_firmware
    rw [haddr]
    by_cases hx : x = 0xea
    · subst hx
      have hy : ¬(y = 0x04) := fun hy => hne ⟨rfl, hy⟩
      simp [hy]
    · simp [hx]
  · intro rest
    unfold Core._map_firmware
    rw [haddr]
    norm_num

/-- Witness for `c5_firmware_address_derivation`: concrete two-byte firmware
files, one without and one with the relocation magic. -/
theorem c5_witness :
    Core._map_firmware none (strChars ("11000")) [0, 0] 0x40200000 =
      some (0x40211000, 0x40211000 + ([0, 0] : List Nat).length, [0, 0]) ∧
    Core._map_firmware none (strChars ("11000")) [0xea, 0x04] 0x40200000 =
      some (0x40211010, 0x40211010 + ([0xea, 0x04] : List Nat).length,
        [0xea, 0x04]) := by
  exact ⟨c5_firmware_address_derivation.1 0 0 [] (by decide),
    c5_firmware_address_derivation.2 []⟩

/-- Claim C6: if any region entry of the dump record (a dict value under a
key other than `REGS`) is structurally malformed — missing `data`, missing
`addr`, or carrying a payload `decodestring` rejects — then `_map_core`
fails as a whole (`none`): no partial memory map is produced and the
malformed record is not silently skipped. -/
theorem c6_malformed_record_fails (core : List (String × JVal)) (k : String)
    (d : JDict) (hmem : (k, JVal.dict d) ∈ core) (hk : k ≠ "REGS")
    (hbad : d.data = none ∨ d.addr = none ∨
      ∃ s, d.data = some s ∧ decodestring s = none) :
    Core._map_core core = none := by
  induction core with
  | nil => simp at hmem
  | cons e rest ih =>
    obtain ⟨k2, v2⟩ := e
    rcases List.mem_cons.mp hmem with hhead | htail
    · obtain ⟨hk2, hv2⟩ : k2 = k ∧ v2 = JVal.dict d := by
        have h1 := congrArg Prod.fst hhead
        have h2 := congrArg Prod.snd hhead
        exact ⟨h1.symm, h2.symm⟩
      subst hk2
      subst hv2
      rcases hbad with hb | hb | ⟨s, hs, hds⟩
      · simp [Core._map_core, hk, hb]
      · rcases hd : d.data with _ | s
        · simp [Core._map_core, hk, hd]
        · rcases hds : decodestring s with _ | bytes
          · simp [Core._map_core, hk, hd, hds]
          · simp [Core._map_core, hk, hd, hds, hb]
      · simp [Core._map_core, hk, hs, hds]
    · have hrest := ih htail
      rcases v2 with _ | d2
      · simpa [Core._map_core] using hrest
      · by_cases hk2 : k2 = "REGS"
        · simpa [Core._map_core, hk2] using hrest
        · rcases hd2 : d2.data with _ | s2
          · simp [Core._map_core, hk2, hd2]
          · rcases hds2 : decodestring s2 with _ | bytes2
            · simp [Core._map_core, hk2, hd2, hds2]
            · rcases ha2 : d2.addr with _ | a2
              · simp [Core._map_core, hk2, hd2, hds2, ha2]
              · simp [Core._map_core, hk2, hd2, hds2, ha2, hrest]

/-- Witness for `c6_malformed_record_fails`: a region entry missing its
`data` field, and one whose payload is the invalid base64 string QQ (a
dangling unpadded pair, the incorrect-padding error of a2b_base64); each
makes the whole decode fail. -/
theorem c6_witness :
    Core._map_core [("dram", JVal.dict ⟨some 0, none⟩)] = none ∧
    Core._map_core [("iram", JVal.dict ⟨some 4, some (strChars ("QQ"))⟩)] = none :=
  ⟨c6_malformed_record_fails [("dram", JVal.dict ⟨some 0, none⟩)] "dram"
      ⟨some 0, none⟩ (by simp) (by decide) (Or.inl rfl),
    c6_malformed_record_fails [("iram", JVal.dict ⟨some 4, some (strChars ("QQ"))⟩)]
      "iram" ⟨some 4, some (strChars ("QQ"))⟩ (by simp) (by decide)
      (Or.inr (Or.inr ⟨strChars ("QQ"), rfl, by decide⟩))⟩

theorem matchesAt_iff (data pat : List Nat) (p : Nat) :
    matchesAt data pat p = true ↔ (data.drop p).take pat.length = pat := by
  unfold matchesAt
  exact decide_eq_true_iff

theorem matchesAt_bound (data pat : List Nat) (p : Nat) (hp : 0 < pat.length)
    (h : matchesAt data pat p = true) : p + pat.length ≤ data.length := by
  rw [matchesAt_iff] at h
  have hl := congrArg List.length h
  rw [List.length_take, List.length_drop] at hl
  rw [Nat.min_def] at hl
  split_ifs at hl <;> omega

theorem matchesAt_window (file pat : List Nat) (o a p : Nat) (hp : 0 < pat.length) :
    matchesAt ((file.drop o).take a) pat p = true ↔
      (p + pat.length ≤ a ∧ matchesAt file pat (o + p) = true) := by
  rw [matchesAt_iff, matchesAt_iff]
  have hrw : (((file.drop o).take a).drop p).take pat.length =
      (file.drop (o + p)).take (min pat.length (a - p)) := by
    rw [List.drop_take, List.drop_drop, List.take_take]
  rw [hrw]
  by_cases hpa : p + pat.length ≤ a
  · have hmin : min pat.length (a - p) = pat.length := by omega
    rw [hmin]
    exact ⟨fun h => ⟨hpa, h⟩, fun h => h.2⟩
  · constructor
    · intro h
      exfalso
      have hl := congrArg List.length h
      rw [List.length_take, List.length_drop] at hl
      have h1 : min pat.length (a - p) < pat.length := by omega
      rw [Nat.min_def] at hl
      rw [Nat.min_def] at h1
      split_ifs at hl h1 <;> omega
    · intro h
      exact absurd h.1 hpa

theorem rfindAux_none (data pat : List Nat) (n : Nat)
    (h : rfindAux data pat n = none) :
    ∀ p, p ≤ n → matchesAt data pat p = false := by
  induction n with
  | zero =>
    intro p hpn
    have hp0 : p = 0 := by omega
    subst hp0
    unfold rfindAux at h
    by_cases hm : matchesAt data pat 0
    · rw [if_pos hm] at h
      exact Option.noConfusion h
    · simpa using hm
  | succ n ih =>
    intro p hpn
    unfold rfindAux at h
    by_cases hm : matchesAt data pat (n + 1)
    · rw [if_pos hm] at h
      exact Option.noConfusion h
    · rw [if_neg hm] at h
      rcases Nat.lt_or_ge p (n + 1) with hlt | hge
      · exact ih h p (by omega)
      · have hp : p = n + 1 := by omega
        subst hp
        simpa using hm

theorem rfindAux_some (data pat : List Nat) (n q : Nat)
    (h : rfindAux data pat n = some q) :
    matchesAt data pat q = true ∧ q ≤ n ∧
      ∀ p, p ≤ n → q < p → matchesAt data pat p = false := by
  induction n with
  | zero =>
    unfold rfindAux at h
    by_cases hm : matchesAt data pat 0
    · rw [if_pos hm] at h
      have hq : q = 0 := (Option.some.inj h).symm
      subst hq
      exact ⟨hm, le_refl 0, fun p hp hq => by omega⟩
    · rw [if_neg hm] at h
      exact Option.noConfusion h
  | succ n ih =>
    unfold rfindAux at h
    by_cases hm : matchesAt data pat (n + 1)
    · rw [if_pos hm] at h
      have hq : q = n + 1 := (Option.some.inj h).symm
      subst hq
      exact ⟨hm, le_refl _, fun p hp hq => by omega⟩
    · rw [if_neg hm] at h
      obtain ⟨h1, h2, h3⟩ := ih h
      refine ⟨h1, by omega, fun p hp hq => ?_⟩
      rcases Nat.lt_or_ge p (n + 1) with hlt | hge
      · exact h3 p (by omega) hq
      · have hp1 : p = n + 1 := by omega
        subst hp1
        simpa using hm

theorem searchGo_eq_found (file pat : List Nat) (so offset pos : Nat)
    (h : rfindL ((file.drop (offset - 10000)).take (min 10000 so)) pat = some pos) :
    searchGo file so pat offset = ((offset - 10000 + pos : Nat) : Int) := by
  rw [searchGo, h]

theorem searchGo_eq_none_zero (file pat : List Nat) (so offset : Nat)
    (h : rfindL ((file.drop (offset - 10000)).take (min 10000 so)) pat = none)
    (h0 : offset - 10000 = 0) :
    searchGo file so pat offset = -1 := by
  rw [searchGo, h]
  simp [h0]

theorem searchGo_eq_none_step (file pat : List Nat) (so offset : Nat)
    (h : rfindL ((file.drop (offset - 10000)).take (min 10000 so)) pat = none)
    (h0 : offset - 10000 ≠ 0) :
    searchGo file so pat offset = searchGo file so pat (offset - 10000 + 5000) := by
  rw [searchGo, h]
  simp [h0]

theorem searchGo_correct (file pat : List Nat) (so : Nat)
    (hp : 0 < pat.length) (hp2 : pat.length ≤ 5000) :
    ∀ offset, offset ≤ so →
      (∀ p, matchesAt file pat p = true → p + pat.length ≤ so →
        p + pat.length ≤ offset) →
      ((searchGo file so pat offset = -1 ∧
          ∀ p, ¬(matchesAt file pat p = true ∧ p + pat.length ≤ so)) ∨
        (∃ q : Nat, searchGo file so pat offset = (q : Int) ∧
          matchesAt file pat q = true ∧ q + pat.length ≤ so ∧
          ∀ r, matchesAt file pat r = true → r + pat.length ≤ so → r ≤ q)) := by
  intro offset
  induction offset using Nat.strong_induction_on with
  | _ offset ih =>
    intro hle hinv
    rcases hfind : rfindL ((file.drop (offset - 10000)).take (min 10000 so)) pat
      with _ | pos
    · by_cases h0 : offset - 10000 = 0
      · rw [searchGo_eq_none_zero file pat so offset hfind h0]
        left
        refine ⟨rfl, fun p hpc => ?_⟩
        obtain ⟨hpm, hps⟩ := hpc
        have hpoff : p + pat.length ≤ offset := hinv p hpm hps
        have hdata : matchesAt ((file.drop (offset - 10000)).take (min 10000 so))
            pat p = true := by
          rw [matchesAt_window file pat _ _ _ hp]
          refine ⟨by omega, ?_⟩
          have hop : offset - 10000 + p = p := by omega
          rw [hop]
          exact hpm
        have hlen := matchesAt_bound _ pat p hp hdata
        have hnone := rfindAux_none _ pat _ hfind p (by omega)
        rw [hnone] at hdata
        exact Bool.noConfusion hdata
      · rw [searchGo_eq_none_step file pat so offset hfind h0]
        apply ih (offset - 10000 + 5000) (by omega) (by omega)
        intro p hpm hps
        have hpo := hinv p hpm hps
        by_contra hgt
        push_neg at hgt
        have hdata : matchesAt ((file.drop (offset - 10000)).take (min 10000 so))
            pat (p - (offset - 10000)) = true := by
          rw [matchesAt_window file pat _ _ _ hp]
          refine ⟨by omega, ?_⟩
          have hop : offset - 10000 + (p - (offset - 10000)) = p := by omega
          rw [hop]
          exact hpm
        have hlen := matchesAt_bound _ pat _ hp hdata
        have hnone := rfindAux_none _ pat _ hfind (p - (offset - 10000)) (by omega)
        rw [hnone] at hdata
        exact Bool.noConfusion hdata
    · rw [searchGo_eq_found file pat so offset pos hfind]
      right
      obtain ⟨hm, hql, hmax⟩ := rfindAux_some _ pat _ pos hfind
      rw [matchesAt_window file pat _ _ _ hp] at hm
      obtain ⟨hm1, hm2⟩ := hm
      refine ⟨offset - 10000 + pos, rfl, hm2, by omega, fun r hrm hrs => ?_⟩
      have hro := hinv r hrm hrs
      rcases Nat.lt_or_ge r (offset - 10000) with hlt | hge
      · omega
      · have hdata : matchesAt ((file.drop (offset - 10000)).take (min 10000 so))
            pat (r - (offset - 10000)) = true := by
          rw [matchesAt_window file pat _ _ _ hp]
          refine ⟨by omega, ?_⟩
          have hop : offset - 10000 + (r - (offset - 10000)) = r := by omega
          rw [hop]
          exact hrm
        have hlen := matchesAt_bound _ pat _ hp hdata
        by_contra hgt
        push_neg at hgt
        have hfalse := hmax (r - (offset - 10000)) (by omega) (by omega)
        rw [hfalse] at hdata
        exact Bool.noConfusion hdata

theorem search_backwards_spec (file pat : List Nat) (so : Nat)
    (hp : 0 < pat.length) (hp2 : pat.length ≤ 5000) :
    ((Core._search_backwards file so pat = -1 ∧
        ∀ p, ¬(matchesAt file pat p = true ∧ p + pat.length ≤ so)) ∨
      (∃ q : Nat, Core._search_backwards file so pat = (q : Int) ∧
        matchesAt file pat q = true ∧ q + pat.length ≤ so ∧
        ∀ r, matchesAt file pat r = true → r + pat.length ≤ so → r ≤ q)) :=
  searchGo_correct file pat so hp hp2 so (le_refl so) (fun _ _ h => h)

/-- Claim C4: when the log contains an end delimiter (latest occurrence at
`e`) and a start delimiter that completes a snippet before it (latest such
occurrence at `s`), `Core._read` locates exactly that last complete pair —
the end delimiter found by the backward scan from end-of-file, the start
delimiter by the backward scan from the position of the end delimiter — and
extracts precisely the text strictly between them.  With two or more
complete snippets in the log this is the chronologically last one. -/
theorem c4_selects_last_snippet (file : List Nat) (e s : Nat)
    (hE : matchesAt file END_BYTES e = true)
    (hEl : ∀ p, p < file.length → matchesAt file END_BYTES p = true → p ≤ e)
    (hS : matchesAt file START_BYTES s = true)
    (hSe : s + START_BYTES.length ≤ e)
    (hSl : ∀ p, p < file.length → matchesAt file START_BYTES p = true →
      p + START_BYTES.length ≤ e → p ≤ s) :
    Core._read file =
      some ((file.drop (s + START_BYTES.length)).take
        (e - (s + START_BYTES.length))) := by
  have hElen : END_BYTES.length = 23 := by decide
  have hSlen : START_BYTES.length = 23 := by decide
  have hpE : (0 : Nat) < END_BYTES.length := by omega
  have hpS : (0 : Nat) < START_BYTES.length := by omega
  have hE2 : e + END_BYTES.length ≤ file.length := matchesAt_bound file END_BYTES e hpE hE
  rcases search_backwards_spec file END_BYTES file.length hpE (by omega)
    with ⟨_, hno⟩ | ⟨q, hq, hqm, hqle, hqmax⟩
  · exact absurd ⟨hE, hE2⟩ (hno e)
  · have hqb := matchesAt_bound file END_BYTES q hpE hqm
    have hqe : q = e := by
      have h1 := hEl q (by omega) hqm
      have h2 := hqmax e hE hE2
      omega
    subst hqe
    have hS2 : s + START_BYTES.length ≤ q := hSe
    rcases search_backwards_spec file START_BYTES q hpS (by omega)
      with ⟨_, hno2⟩ | ⟨u, hu, hum, hule, humax⟩
    · exact absurd ⟨hS, hS2⟩ (hno2 s)
    · have hub := matchesAt_bound file START_BYTES u hpS hum
      have hus : u = s := by
        have h1 := hSl u (by omega) hum hule
        have h2 := humax s hS hS2
        omega
      subst hus
      have hne1 : ((q : Int)) ≠ -1 := by omega
      have hne2 : ((u : Int)) ≠ -1 := by omega
      unfold Core._read
      rw [hq]
      rw [if_neg hne1]
      simp only [Int.toNat_natCast]
      rw [hu]
      rw [if_neg hne2]
      simp only [Int.toNat_natCast]

/-- Witness for `c4_selects_last_snippet`: on the two-snippet log `exLog` the
decoder extracts the byte `B` (66) of the second, later snippet. -/
theorem c4_witness :
    Core._read exLog =
      some ((exLog.drop (47 + START_BYTES.length)).take
        (71 - (47 + START_BYTES.length))) :=
  c4_selects_last_snippet exLog 71 47 (by decide) (by decide) (by decide)
    (by decide) (by decide)
